import Mathlib

/-!
Verification development for the FHIR abstract-model base class
(`fhirabstractmodel`): a shallow embedding of the construction-time
resource-type check, the `dict`/`json` serialization traversal, the
empty-container pruning helper `filter_empty_list_dict`, and the
`add_root_validator` registration bookkeeping, together with theorems
about the claims of the specification.
-/

set_option maxHeartbeats 1000000

/-- Metadata of one declared pydantic field of a FHIR model class:
the internal field name, the wire alias (`ModelField.alias`; the empty
string models a falsy alias), whether `is_primitive_type` holds of the
field, and the `element_property` flag from `Field(..., element_property=...)`
(bookkeeping fields such as `resource_type` and `fhir_comments` carry
`element_property = false`). -/
structure FieldInfo where
  name : String
  al : String
  is_primitive : Bool
  element_property : Bool
deriving DecidableEq, Repr

/-- A FHIR model class: module and class name (used in error messages),
the declared default of the `resource_type` field, the names of the
classes of `inspect.getmro(cls)` in order, the `__custom_root_type__`
flag, and the declared fields (`cls.__fields__`) in declaration order. -/
structure ModelClass where
  module_name : String
  class_name : String
  resource_type_default : String
  mro_names : List String
  custom_root : Bool
  fields : List FieldInfo
deriving DecidableEq, Repr

/-- Python values as they occur in model instances and serialized output:
`null` is Python's `None`, `list`/`dict` the plain containers, and
`model cls vals` a model instance with class `cls` whose `__dict__`
holds the association list `vals`. -/
inductive FValue where
  | null : FValue
  | str : String → FValue
  | int : Int → FValue
  | bool : Bool → FValue
  | list : List FValue → FValue
  | dict : List (String × FValue) → FValue
  | model : ModelClass → List (String × FValue) → FValue

/-- `v is None`. -/
def FValue.isNull : FValue → Bool
  | .null => true
  | _ => false

/-- Python's `len` on the kinds of values the code applies it to
(strings and containers).  `len` of a scalar raises `TypeError` in
Python; the code only reaches it on converted extension values, which
are containers, so the scalar case is mapped to `0` here. -/
def pyLen : FValue → Nat
  | .str s => s.length
  | .list xs => xs.length
  | .dict xs => xs.length
  | _ => 0

/-- `value == "s"` for a Python value compared against a string: only a
string with the same characters compares equal. -/
def pyEqStr : FValue → String → Bool
  | .str s, t => s = t
  | _, _ => false

/-- Python's `str()` rendering of a value, as interpolated into error
messages.  Only the scalar cases are exercised by the theorems below. -/
def pyStr : FValue → String
  | .null => "None"
  | .str s => s
  | .int n => toString n
  | .bool b => if b then "True" else "False"
  | .list _ => "[...]"
  | .dict _ => "\x7b...\x7d"
  | .model c _ => "<" ++ c.module_name ++ "." ++ c.class_name ++ " object>"

/-- `d.get(k, None)` on a Python dict represented as an association list. -/
def dictGet : List (String × FValue) → String → FValue
  | [], _ => .null
  | p :: rest, k => if p.1 = k then p.2 else dictGet rest k

/-- `k in d`. -/
def containsKey (xs : List (String × FValue)) (k : String) : Bool :=
  xs.any (fun p => p.1 = k)

/-- `d.pop(k, None)`'s effect on the dict: the key is removed (keys of a
Python dict are unique, so removing every occurrence from the
association list is the same operation). -/
def popKey (xs : List (String × FValue)) (k : String) : List (String × FValue) :=
  xs.filter (fun p => ¬ p.1 = k)

/-- One insertion step of `OrderedDict`: an existing key keeps its
position and has its value updated, a new key is appended. -/
def odInsert (acc : List (String × FValue)) (k : String) (v : FValue) :
    List (String × FValue) :=
  if acc.any (fun p => p.1 = k) then
    acc.map (fun p => if p.1 = k then (k, v) else p)
  else
    acc ++ [(k, v)]

/-- `OrderedDict(pairs)`: left fold of `odInsert` over the yielded pairs. -/
def toOrderedDict (xs : List (String × FValue)) : List (String × FValue) :=
  xs.foldl (fun acc p => odInsert acc p.1 p.2) []

/-- `FHIRAbstractModel.has_resource_base`: walk `inspect.getmro(cls)[:-4]`
looking for a class literally named `Resource`. -/
def has_resource_base (cls : ModelClass) : Bool :=
  (cls.mro_names.take (cls.mro_names.length - 4)).any (fun n => n = "Resource")

/-- `FHIRAbstractModel.element_properties`: the declared fields whose
`element_property` extra is true, in declaration order. -/
def element_properties (cls : ModelClass) : List FieldInfo :=
  cls.fields.filter (fun f => f.element_property)

/-- The instance attribute `self.resource_type`.  Modelled from the spec:
the external validation engine stores every field in the instance
`__dict__`, filling an unsupplied field with its declared default, so the
attribute read falls back to the class default when the key is absent. -/
def attrResourceType (cls : ModelClass) (vals : List (String × FValue)) : FValue :=
  if containsKey vals "resource_type" then dictGet vals "resource_type"
  else .str cls.resource_type_default

/-- `cls.__fields__[k].alias`.  A `KeyError` on an undeclared key is not
modelled: instances store only declared fields, so the lookup is reached
only for declared extension fields; an absent key falls back to the key
itself. -/
def fieldAlias (cls : ModelClass) (k : String) : String :=
  match cls.fields.find? (fun f => f.name = k) with
  | some fi => fi.al
  | none => k

theorem sizeOf_dictGet (xs : List (String × FValue)) (k : String) :
    sizeOf (dictGet xs k) ≤ sizeOf xs := by
  induction xs with
  | nil => simp [dictGet]
  | cons p rest ih =>
    simp only [dictGet]
    split
    · cases p with | mk a b => simp; omega
    · simp; omega

theorem sizeOf_filter_le {α : Type} [SizeOf α] (p : α → Bool) (l : List α) :
    sizeOf (l.filter p) ≤ sizeOf l := by
  induction l with
  | nil => simp
  | cons x rest ih =>
    simp only [List.filter]
    split <;> simp <;> omega

mutual

/-- `filter_empty_list_dict`: a non-container is returned unchanged; an
empty container returns `None`; otherwise the entries are pruned in
place and `None` is returned if the container ended up empty. -/
def filter_empty_list_dict (items : FValue) : FValue :=
  match items with
  | .list xs =>
    if xs.isEmpty then .null
    else
      let ys := pruneListIter xs
      if ys.isEmpty then .null else .list ys
  | .dict xs =>
    if xs.isEmpty then .null
    else
      let ys := pruneDict xs
      if ys.isEmpty then .null else .dict ys
  | v => v
termination_by sizeOf items
decreasing_by
  all_goals simp_wf

/-- The list branch of `filter_empty_list_dict`, i.e. the source's
`for idx, item in enumerate(items)` loop with in-place `del items[idx]`:
a `None` item is kept untouched; otherwise the item is pruned in place
(so a kept item is replaced by its pruned form), and on deletion the
list iterator's next step lands past the element that slid into the
deleted slot, so that element is kept without being examined. -/
def pruneListIter (xs : List FValue) : List FValue :=
  match xs with
  | [] => []
  | x :: rest =>
    if x.isNull then x :: pruneListIter rest
    else if (filter_empty_list_dict x).isNull then
      match rest with
      | [] => []
      | y :: ys => y :: pruneListIter ys
    else filter_empty_list_dict x :: pruneListIter rest
termination_by sizeOf xs
decreasing_by
  all_goals simp_wf
  all_goals omega

/-- The dict branch of `filter_empty_list_dict`: iteration over a
snapshot `tuple(items.keys())`, so every entry is examined; a `None`
value is kept, a value pruning to `None` is deleted, any other value is
replaced by its pruned form. -/
def pruneDict (xs : List (String × FValue)) : List (String × FValue) :=
  match xs with
  | [] => []
  | (k, v) :: rest =>
    if v.isNull then (k, v) :: pruneDict rest
    else if (filter_empty_list_dict v).isNull then pruneDict rest
    else (k, filter_empty_list_dict v) :: pruneDict rest
termination_by sizeOf xs
decreasing_by
  all_goals simp_wf
  all_goals omega

end

/-- The final empty-collapse check of `_fhir_get_value` (source lines
586-592): a sequence or dict of length zero becomes `None` when
`exclude_none` is true. -/
def finalCollapse (value : FValue) (exclude_none : Bool) : FValue :=
  match value with
  | .list xs => if exclude_none && xs.isEmpty then .null else value
  | .dict xs => if exclude_none && xs.isEmpty then .null else value
  | _ => value

mutual

/-- `FHIRAbstractModel._fhir_get_value`: recursive conversion of one raw
field value.  A nested model is serialized through its `dict` method,
with the custom-root unwrap (`"__root__" in v_dict`) returning early and
thereby bypassing the final empty-collapse, as the early `return` in the
source does; dicts and sequences recurse per entry; the `Enum` branch of
the source is dead for FHIR models (their `Config` does not set
`use_enum_values`) and is not modelled. -/
def _fhir_get_value (v : FValue) (by_alias exclude_none exclude_comments : Bool) :
    FValue :=
  match v with
  | .model cls vals =>
    let d := toOrderedDict (_fhir_iter cls vals by_alias exclude_none exclude_comments)
    match d.find? (fun p => p.1 = "__root__") with
    | some p => p.2
    | none => finalCollapse (.dict d) exclude_none
  | .dict xs =>
    finalCollapse (.dict (fhirMapDict xs by_alias exclude_none exclude_comments))
      exclude_none
  | .list xs =>
    finalCollapse (.list (fhirMapList xs by_alias exclude_none exclude_comments))
      exclude_none
  | w => finalCollapse w exclude_none
termination_by sizeOf v
decreasing_by
  all_goals simp_wf
  all_goals (cases cls; simp; try omega)

/-- Per-element recursion of `_fhir_get_value` over a sequence value. -/
def fhirMapList (xs : List FValue) (by_alias exclude_none exclude_comments : Bool) :
    List FValue :=
  match xs with
  | [] => []
  | x :: rest =>
    _fhir_get_value x by_alias exclude_none exclude_comments ::
      fhirMapList rest by_alias exclude_none exclude_comments
termination_by sizeOf xs
decreasing_by
  all_goals simp_wf
  all_goals omega

/-- Per-key recursion of `_fhir_get_value` over a dict value. -/
def fhirMapDict (xs : List (String × FValue))
    (by_alias exclude_none exclude_comments : Bool) : List (String × FValue) :=
  match xs with
  | [] => []
  | (k, v) :: rest =>
    (k, _fhir_get_value v by_alias exclude_none exclude_comments) ::
      fhirMapDict rest by_alias exclude_none exclude_comments
termination_by sizeOf xs
decreasing_by
  all_goals simp_wf
  all_goals omega

/-- `FHIRAbstractModel._fhir_iter`: the type tag first for
resource-base-descended classes, then every element field in canonical
order, then the comments entry.  Modelled from the spec: the generated
`elements_sequence`/`get_alias_mapping` pair (not part of this file)
enumerates exactly the `element_property` fields in declaration order,
so the field loop runs over `element_properties`. -/
def _fhir_iter (cls : ModelClass) (vals : List (String × FValue))
    (by_alias exclude_none exclude_comments : Bool) : List (String × FValue) :=
  (if has_resource_base cls then [("resourceType", attrResourceType cls vals)] else [])
    ++ _fhir_iter_fields (element_properties cls) cls vals by_alias exclude_none
        exclude_comments
    ++ (if (dictGet vals "fhir_comments").isNull = false ∧ exclude_comments = false then
          [("fhir_comments", dictGet vals "fhir_comments")]
        else [])
termination_by 1 + sizeOf cls.fields + sizeOf vals
decreasing_by
  simp_wf
  have h := sizeOf_filter_le (fun f => f.element_property) cls.fields
  simp [element_properties]
  omega

/-- The body of `_fhir_iter`'s field loop: for each element field, fetch
the raw value, convert it if present, emit it unless it converted to
`None` while `exclude_none` is true; for a primitive-typed field, also
look for the paired `<name>__ext` extension entry and emit it under its
own alias when its converted value is present and non-empty. -/
def _fhir_iter_fields (fields : List FieldInfo) (cls : ModelClass)
    (vals : List (String × FValue))
    (by_alias exclude_none exclude_comments : Bool) : List (String × FValue) :=
  match fields with
  | [] => []
  | f :: rest =>
    let v := dictGet vals f.name
    let dict_key := if by_alias then (if f.al = "" then f.name else f.al) else f.name
    let v2 := if v.isNull then v
              else _fhir_get_value v by_alias exclude_none exclude_comments
    (if v2.isNull = false ∨ (exclude_none = false ∧ v2.isNull = true) then
        [(dict_key, v2)]
      else [])
    ++ (if f.is_primitive then
          let ext_key := f.name ++ "__ext"
          let ext_val := dictGet vals ext_key
          if ext_val.isNull then []
          else
            let dict_key2 := if by_alias then
                (if fieldAlias cls ext_key = "" then ext_key else fieldAlias cls ext_key)
              else ext_key
            let ext_val2 := _fhir_get_value ext_val by_alias exclude_none exclude_comments
            if ext_val2.isNull = false ∧ 0 < pyLen ext_val2 then [(dict_key2, ext_val2)]
            else []
        else [])
    ++ _fhir_iter_fields rest cls vals by_alias exclude_none exclude_comments
termination_by sizeOf fields + sizeOf vals
decreasing_by
  all_goals simp_wf
  all_goals first
    | omega
    | (have h1 := sizeOf_dictGet vals f.name
       have h2 := sizeOf_dictGet vals (f.name ++ "__ext")
       omega)

end

/-- `FHIRAbstractModel.dict` (the mapping-form serialization): an
`OrderedDict` built from `_fhir_iter`.  The `**pydantic_extra` kwargs
are handled by `dictWithKwargs` below. -/
def dictMethod (cls : ModelClass) (vals : List (String × FValue))
    (by_alias exclude_none exclude_comments : Bool) : List (String × FValue) :=
  toOrderedDict (_fhir_iter cls vals by_alias exclude_none exclude_comments)

/-- `FHIRAbstractModel.dict` with its `**pydantic_extra` catch-all: the
extra keyword arguments only trigger a non-fatal `logger.warning` (the
first component) and do not reach the computation of the mapping. -/
def dictWithKwargs (cls : ModelClass) (vals : List (String × FValue))
    (by_alias exclude_none exclude_comments : Bool)
    (pydantic_extra : List (String × FValue)) :
    Bool × List (String × FValue) :=
  (0 < pydantic_extra.length, dictMethod cls vals by_alias exclude_none exclude_comments)

/-- The mapping computed by `FHIRAbstractModel.json` before it is handed
to the pluggable encoder.  Faithful to the source: `self.dict(...)` is
called with `include/exclude/exclude_unset/exclude_defaults` — which
land in the ignored `**pydantic_extra` of the overridden `dict` — and
WITHOUT `exclude_comments`, so the mapping is computed with
`exclude_comments = false` regardless of the flag; the flag only
triggers the `filter_empty_list_dict` post-pass.  The custom-root unwrap
`data = data[ROOT_KEY]` is modelled by the dict lookup. -/
def jsonData (cls : ModelClass) (vals : List (String × FValue))
    (by_alias exclude_none exclude_comments : Bool) : FValue :=
  let data := dictMethod cls vals by_alias exclude_none false
  let v : FValue := if cls.custom_root then dictGet data "__root__" else .dict data
  if exclude_comments then filter_empty_list_dict v else v

mutual

/-- Whether the key `k` occurs in a value tree at any nesting depth
(inside dicts, lists, or model `__dict__`s). -/
def hasKeyDeep (k : String) (v : FValue) : Bool :=
  match v with
  | .dict xs => hasKeyDeepDict k xs
  | .model _ xs => hasKeyDeepDict k xs
  | .list xs => hasKeyDeepList k xs
  | _ => false
termination_by sizeOf v
decreasing_by all_goals (simp_wf; try omega)

/-- `hasKeyDeep` over the elements of a list. -/
def hasKeyDeepList (k : String) (xs : List FValue) : Bool :=
  match xs with
  | [] => false
  | x :: rest => hasKeyDeep k x || hasKeyDeepList k rest
termination_by sizeOf xs
decreasing_by all_goals (simp_wf; try omega)

/-- `hasKeyDeep` over the entries of a dict. -/
def hasKeyDeepDict (k : String) (xs : List (String × FValue)) : Bool :=
  match xs with
  | [] => false
  | (k2, v) :: rest => (decide (k2 = k) || hasKeyDeep k v) || hasKeyDeepDict k rest
termination_by sizeOf xs
decreasing_by all_goals (simp_wf; try omega)

end

/-- The validation error raised by `FHIRAbstractModel.__init__` for a
wrong resource type: the `ErrorWrapper` location and the rendered
message (`WrongResourceType`'s template `Wrong ResourceType: ...`
applied to the f-string of the source). -/
structure TagError where
  loc : String
  msg : String
deriving DecidableEq, Repr

/-- The message of the `WrongResourceType` error, exactly as the source
formats it. -/
def wrongResourceTypeMsg (cls : ModelClass) (got : FValue) : String :=
  "Wrong ResourceType: ``" ++ cls.module_name ++ "." ++ cls.class_name ++
    "`` expects resource type ``" ++ cls.resource_type_default ++
    "``, but got ``" ++ pyStr got ++
    "``. Make sure resource type name is correct and right ModelClass has been chosen."

/-- `FHIRAbstractModel.__init__` up to the delegation point: pop the
`resource_type` key, then (when the class has no field literally named
`resourceType`) let a `resourceType` key take over; a popped tag that is
not `None` and differs from the class default raises the validation
error, otherwise the remaining data is handed to `BaseModel.__init__`. -/
def fhirInit (cls : ModelClass) (data : List (String × FValue)) :
    Except TagError (List (String × FValue)) :=
  let rt0 := dictGet data "resource_type"
  let data1 := popKey data "resource_type"
  let hasRT : Bool := containsKey data1 "resourceType"
      && !(cls.fields.any (fun f => f.name = "resourceType"))
  let rt := if hasRT then dictGet data1 "resourceType" else rt0
  let data2 := if hasRT then popKey data1 "resourceType" else data1
  if rt.isNull = false ∧ pyEqStr rt cls.resource_type_default = false then
    .error ⟨"resource_type", wrongResourceTypeMsg cls rt⟩
  else
    .ok data2

/-- The type-tag value that `__init__` checks for the given input data:
a `resourceType` key (when it is not shadowed by a declared field of
that name) takes precedence over a `resource_type` key. -/
def suppliedTag (cls : ModelClass) (data : List (String × FValue)) : FValue :=
  if containsKey (popKey data "resource_type") "resourceType"
      && !(cls.fields.any (fun f => f.name = "resourceType")) then
    dictGet data "resourceType"
  else
    dictGet data "resource_type"

/-- Modelled from the spec: the delegation `BaseModel.__init__(**data)`
to the external validation engine stores the supplied fields and fills
an unsupplied field with its declared default; only the `resource_type`
field is tracked here. -/
def delegateInit (cls : ModelClass) (rest : List (String × FValue)) :
    List (String × FValue) :=
  if containsKey rest "resource_type" then rest
  else rest ++ [("resource_type", .str cls.resource_type_default)]

/-- A root-validator candidate function: its `__name__` and the names of
its signature's parameters in order. -/
structure PyFunc where
  name : String
  params : List String
deriving DecidableEq, Repr

/-- The mutable class-object state that `add_root_validator` reads and
writes: `str(cls)` (for error messages), the `__dict__` key sets of
every class in `cls.mro()` (the class's own dict first), the
`__fields__` keys, and the two root-validator hook lists. -/
structure PyClass where
  repr_str : String
  mro_dicts : List (List String)
  field_names : List String
  pre_root_validators : List PyFunc
  post_root_validators : List (Bool × PyFunc)
deriving DecidableEq, Repr

/-- Python's `list.insert(index, x)`: a negative index counts from the
end and both directions clamp to the list's bounds. -/
def pyInsert {α : Type} (l : List α) (index : Int) (x : α) : List α :=
  let n : Int := l.length
  let j : Int := if index < 0 then max 0 (n + index) else min index n
  l.insertIdx j.toNat x

/-- Python's `str(signature(f))`, e.g. `(cls, values)`. -/
def sigStr (f : PyFunc) : String :=
  "(" ++ String.intercalate ", " f.params ++ ")"

/-- `FHIRAbstractModel.add_root_validator`: the collision checks against
`cls.mro()` and `cls.__fields__`, the signature checks (exactly two
parameters, the first named `cls`), then insertion into the pre- or
post-root-validator list and `setattr` of the function onto the class's
own `__dict__`.  The result is the class state at return/raise time
together with the `ConfigError` message, if any.  The pydantic
`root_validator(...)` wrapper itself only repackages
`(pre, skip_on_failure, func)` and is not modelled further;
`allow_reuse` only affects pydantic's duplicate-name registry. -/
def add_root_validator (cls : PyClass) (validator : PyFunc)
    (pre skip_on_failure : Bool) (index : Int) : PyClass × Option String :=
  let func_name := validator.name
  if cls.mro_dicts.any (fun d => d.any (fun n => n = func_name)) then
    (cls, some (cls.repr_str ++ " already has same name '" ++ func_name ++
      "' method or attribute!"))
  else if cls.field_names.any (fun n => n = func_name) then
    (cls, some (cls.repr_str ++ " already has same name '" ++ func_name ++ "' field!"))
  else if validator.params.length ≠ 2 then
    (cls, some ("Invalid signature for root validator " ++ func_name ++ ": " ++
      sigStr validator ++ ", should be: (cls, values)."))
  else if validator.params.head? ≠ some "cls" then
    (cls, some ("Invalid signature for root validator " ++ func_name ++ ": " ++
      sigStr validator ++ ", \"" ++ (validator.params.head?.getD "") ++
      "\" not permitted as first argument, should be: (cls, values)."))
  else
    let cls1 :=
      if pre then
        { cls with pre_root_validators :=
            if index = -1 then cls.pre_root_validators ++ [validator]
            else pyInsert cls.pre_root_validators index validator }
      else
        { cls with post_root_validators :=
            if index = -1 then cls.post_root_validators ++ [(skip_on_failure, validator)]
            else pyInsert cls.post_root_validators index (skip_on_failure, validator) }
    let cls2 :=
      { cls1 with mro_dicts :=
          match cls1.mro_dicts with
          | [] => [[func_name]]
          | d :: rest => (func_name :: d) :: rest }
    (cls2, none)

mutual

/-- Whether a value tree contains no list container at any depth (model
instances count as scalars here, since `filter_empty_list_dict` never
looks inside them). -/
def listFree (v : FValue) : Bool :=
  match v with
  | .list _ => false
  | .dict xs => listFreeDict xs
  | _ => true
termination_by sizeOf v
decreasing_by all_goals (simp_wf; try omega)

/-- `listFree` over the entries of a dict. -/
def listFreeDict (xs : List (String × FValue)) : Bool :=
  match xs with
  | [] => true
  | (_, v) :: rest => listFree v && listFreeDict rest
termination_by sizeOf xs
decreasing_by all_goals (simp_wf; try omega)

end

theorem fvalue_sizeOf_pos (v : FValue) : 0 < sizeOf v := by
  cases v <;> simp_arith

theorem listFreeDict_forall {xs : List (String × FValue)} (h : listFreeDict xs = true) :
    ∀ p ∈ xs, listFree p.2 = true := by
  induction xs with
  | nil => intro p hp; cases hp
  | cons q rest ih =>
    obtain ⟨k, v⟩ := q
    simp only [listFreeDict, Bool.and_eq_true] at h
    intro p hp
    rcases List.mem_cons.mp hp with h1 | h1
    · subst h1; exact h.1
    · exact ih h.2 p h1

theorem pruneDict_stable (xs : List (String × FValue))
    (h : ∀ p ∈ xs, p.2.isNull = false →
      filter_empty_list_dict (filter_empty_list_dict p.2) = filter_empty_list_dict p.2) :
    pruneDict (pruneDict xs) = pruneDict xs := by
  induction xs with
  | nil => simp [pruneDict]
  | cons q rest ih =>
    obtain ⟨k, v⟩ := q
    have hrest : ∀ p ∈ rest, p.2.isNull = false →
        filter_empty_list_dict (filter_empty_list_dict p.2) = filter_empty_list_dict p.2 :=
      fun p hp => h p (List.mem_cons_of_mem _ hp)
    by_cases hv : v.isNull = true
    · rw [show pruneDict ((k, v) :: rest) = (k, v) :: pruneDict rest by simp [pruneDict, hv]]
      rw [show pruneDict ((k, v) :: pruneDict rest) = (k, v) :: pruneDict (pruneDict rest) by
        simp [pruneDict, hv]]
      rw [ih hrest]
    · have hv' : v.isNull = false := by revert hv; cases v.isNull <;> simp
      by_cases hf : (filter_empty_list_dict v).isNull = true
      · rw [show pruneDict ((k, v) :: rest) = pruneDict rest by simp [pruneDict, hv', hf]]
        exact ih hrest
      · have hf' : (filter_empty_list_dict v).isNull = false := by
          revert hf; cases (filter_empty_list_dict v).isNull <;> simp
        rw [show pruneDict ((k, v) :: rest) = (k, filter_empty_list_dict v) :: pruneDict rest by
          simp [pruneDict, hv', hf']]
        have hidem := h ⟨k, v⟩ (List.mem_cons_self _ _) hv'
        have hffnull : (filter_empty_list_dict (filter_empty_list_dict v)).isNull = false := by
          rw [hidem]; exact hf'
        rw [show pruneDict ((k, filter_empty_list_dict v) :: pruneDict rest) =
            (k, filter_empty_list_dict (filter_empty_list_dict v)) :: pruneDict (pruneDict rest) by
          simp [pruneDict, hf', hffnull]]
        rw [hidem, ih hrest]

theorem filter_idem_aux : ∀ (n : Nat) (v : FValue), sizeOf v ≤ n → listFree v = true →
    filter_empty_list_dict (filter_empty_list_dict v) = filter_empty_list_dict v := by
  intro n
  induction n with
  | zero =>
    intro v hv _
    exact absurd hv (by have := fvalue_sizeOf_pos v; omega)
  | succ n ih =>
    intro v hv hfree
    match v with
    | .null => simp [filter_empty_list_dict]
    | .str s => simp [filter_empty_list_dict]
    | .int m => simp [filter_empty_list_dict]
    | .bool b => simp [filter_empty_list_dict]
    | .model c vs => simp [filter_empty_list_dict]
    | .list xs => simp [listFree] at hfree
    | .dict xs =>
      have hfree' : listFreeDict xs = true := by simpa [listFree] using hfree
      by_cases hxs : xs.isEmpty = true
      · have hx : xs = [] := by cases xs <;> simp_all
        subst hx
        simp [filter_empty_list_dict]
      · have hxs' : xs.isEmpty = false := by revert hxs; cases xs.isEmpty <;> simp
        have hstable : pruneDict (pruneDict xs) = pruneDict xs := by
          refine pruneDict_stable xs (fun p hp hnull => ?_)
          have hsz : sizeOf p.2 ≤ n := by
            have h1 := List.sizeOf_lt_of_mem hp
            obtain ⟨a, b⟩ := p
            simp at hv h1 ⊢
            omega
          exact ih p.2 hsz (listFreeDict_forall hfree' p hp)
        by_cases hys : (pruneDict xs).isEmpty = true
        · rw [show filter_empty_list_dict (.dict xs) = .null by
            simp [filter_empty_list_dict, hxs', hys]]
          simp [filter_empty_list_dict]
        · have hys' : (pruneDict xs).isEmpty = false := by
            revert hys; cases (pruneDict xs).isEmpty <;> simp
          rw [show filter_empty_list_dict (.dict xs) = .dict (pruneDict xs) by
            simp [filter_empty_list_dict, hxs', hys']]
          have hys2 : (pruneDict (pruneDict xs)).isEmpty = false := by rw [hstable]; exact hys'
          rw [show filter_empty_list_dict (.dict (pruneDict xs)) = .dict (pruneDict (pruneDict xs)) by
            simp [filter_empty_list_dict, hys', hys2]]
          rw [hstable]

/-- C4, counterexample: applying `filter_empty_list_dict` twice to the
tree `[[], []]` does not equal applying it once.  The first application
deletes the first empty list in place, which makes the loop skip the
second one (the `del items[idx]` happens under `enumerate`), leaving
`[[]]`; the second application removes the survivor and collapses the
now-empty list to `None`. -/
theorem filter_empty_list_dict_not_idempotent :
    filter_empty_list_dict (filter_empty_list_dict (FValue.list [FValue.list [], FValue.list []])) ≠
      filter_empty_list_dict (FValue.list [FValue.list [], FValue.list []]) := by
  simp [filter_empty_list_dict, pruneListIter, FValue.isNull, List.isEmpty]

/-- C4, amended: on value trees that contain no list container at any
depth (mappings and scalars only), applying the empty-container pruning
function twice yields the same result as applying it once.  For trees
with lists this can fail, because the pruning loop deletes list items
during iteration and thereby skips the element that follows each
deletion. -/
theorem filter_empty_list_dict_idempotent_of_listFree (v : FValue)
    (h : listFree v = true) :
    filter_empty_list_dict (filter_empty_list_dict v) = filter_empty_list_dict v :=
  filter_idem_aux (sizeOf v) v le_rfl h

/-- C4, witness for the amended theorem at the concrete list-free tree
`\x7b"a": \x7b\x7d, "b": "x"\x7d`. -/
theorem filter_empty_list_dict_idempotent_of_listFree_witness :
    filter_empty_list_dict (filter_empty_list_dict
      (FValue.dict [("a", FValue.dict []), ("b", FValue.str "x")])) =
      filter_empty_list_dict (FValue.dict [("a", FValue.dict []), ("b", FValue.str "x")]) :=
  filter_empty_list_dict_idempotent_of_listFree
    (FValue.dict [("a", FValue.dict []), ("b", FValue.str "x")])
    (by simp [listFree, listFreeDict])

/-- C9: extra keyword arguments to `dict` beyond the three flags have no
effect on the returned mapping (two-run equality) and only raise the
non-fatal warning; the call itself always succeeds. -/
theorem dict_extra_kwargs_no_effect (cls : ModelClass)
    (vals pydantic_extra : List (String × FValue))
    (by_alias exclude_none exclude_comments : Bool) :
    (dictWithKwargs cls vals by_alias exclude_none exclude_comments pydantic_extra).2 =
      (dictWithKwargs cls vals by_alias exclude_none exclude_comments []).2 ∧
    ((dictWithKwargs cls vals by_alias exclude_none exclude_comments pydantic_extra).1 = true ↔
      pydantic_extra ≠ []) := by
  refine ⟨rfl, ?_⟩
  simp [dictWithKwargs, List.length_pos]

/-- C6: registering a root validator whose name collides with an
existing method/attribute anywhere in the mro, or with a declared field,
returns a `ConfigError` and leaves the whole class state — in particular
both hook lists — unchanged. -/
theorem add_root_validator_collision_atomic (cls : PyClass) (validator : PyFunc)
    (pre skip_on_failure : Bool) (index : Int)
    (h : cls.mro_dicts.any (fun d => d.any (fun n => n = validator.name)) = true ∨
      cls.field_names.any (fun n => n = validator.name) = true) :
    (add_root_validator cls validator pre skip_on_failure index).2.isSome = true ∧
    (add_root_validator cls validator pre skip_on_failure index).1.pre_root_validators =
      cls.pre_root_validators ∧
    (add_root_validator cls validator pre skip_on_failure index).1.post_root_validators =
      cls.post_root_validators := by
  unfold add_root_validator
  rcases h with h | h
  · simp [h]
  · by_cases h2 : cls.mro_dicts.any (fun d => d.any (fun n => n = validator.name)) = true
    · simp [h2]
    · have h2' : cls.mro_dicts.any (fun d => d.any (fun n => n = validator.name)) = false := by
        revert h2; cases cls.mro_dicts.any (fun d => d.any (fun n => n = validator.name)) <;> simp
      simp [h2', h]

/-- C6, witness: registering `name` on a class that declares a `name`
field is rejected and mutates nothing. -/
theorem add_root_validator_collision_atomic_witness :
    (add_root_validator ⟨"<class 'fhir.resources.patient.Patient'>", [["dict", "json"]],
        ["resource_type", "name"], [], []⟩
      ⟨"name", ["cls", "values"]⟩ false false (-1)).2.isSome = true ∧
    (add_root_validator ⟨"<class 'fhir.resources.patient.Patient'>", [["dict", "json"]],
        ["resource_type", "name"], [], []⟩
      ⟨"name", ["cls", "values"]⟩ false false (-1)).1.pre_root_validators = [] ∧
    (add_root_validator ⟨"<class 'fhir.resources.patient.Patient'>", [["dict", "json"]],
        ["resource_type", "name"], [], []⟩
      ⟨"name", ["cls", "values"]⟩ false false (-1)).1.post_root_validators = [] :=
  add_root_validator_collision_atomic _ _ false false (-1) (Or.inr (by decide))

/-- C7, counterexample: a validator whose two parameters are named
`cls` and `data` — not `values` — is accepted and registered, because
the source only checks the parameter count and the first parameter's
name.  This refutes the claim that any function not matching the
`(cls, values)` naming is rejected. -/
theorem add_root_validator_accepts_second_param_not_values :
    (add_root_validator ⟨"<class 'fhir.resources.patient.Patient'>", [["dict", "json"]],
        ["resource_type", "name"], [], []⟩
      ⟨"validate_thing", ["cls", "data"]⟩ false false (-1)).2 = none ∧
    (add_root_validator ⟨"<class 'fhir.resources.patient.Patient'>", [["dict", "json"]],
        ["resource_type", "name"], [], []⟩
      ⟨"validate_thing", ["cls", "data"]⟩ false false (-1)).1.post_root_validators =
      [(false, ⟨"validate_thing", ["cls", "data"]⟩)] := by
  constructor <;> rfl

/-- C7, amended: `add_root_validator` rejects with a `ConfigError`, and
without registering anything, every validator whose parameter count is
not exactly two or whose first parameter is not named `cls`; the second
parameter's name is not checked. -/
theorem add_root_validator_signature_check (cls : PyClass) (validator : PyFunc)
    (pre skip_on_failure : Bool) (index : Int)
    (h : validator.params.length ≠ 2 ∨ validator.params.head? ≠ some "cls") :
    (add_root_validator cls validator pre skip_on_failure index).2.isSome = true ∧
    (add_root_validator cls validator pre skip_on_failure index).1 = cls := by
  unfold add_root_validator
  by_cases h1 : cls.mro_dicts.any (fun d => d.any (fun n => n = validator.name)) = true
  · simp [h1]
  · have h1' : cls.mro_dicts.any (fun d => d.any (fun n => n = validator.name)) = false := by
      revert h1; cases cls.mro_dicts.any (fun d => d.any (fun n => n = validator.name)) <;> simp
    by_cases h2 : cls.field_names.any (fun n => n = validator.name) = true
    · simp [h1', h2]
    · have h2' : cls.field_names.any (fun n => n = validator.name) = false := by
        revert h2; cases cls.field_names.any (fun n => n = validator.name) <;> simp
      rcases h with h | h
      · simp [h1', h2', h]
      · by_cases h3 : validator.params.length = 2
        · simp [h1', h2', h3, h]
        · simp [h1', h2', h3]

/-- C7, witness for the amended theorem: a one-parameter validator and a
validator whose first parameter is `self` are both rejected without
mutation. -/
theorem add_root_validator_signature_check_witness :
    ((add_root_validator ⟨"<class 'fhir.resources.patient.Patient'>", [["dict", "json"]],
        ["resource_type", "name"], [], []⟩
      ⟨"validate_thing", ["values"]⟩ false false (-1)).2.isSome = true ∧
    (add_root_validator ⟨"<class 'fhir.resources.patient.Patient'>", [["dict", "json"]],
        ["resource_type", "name"], [], []⟩
      ⟨"validate_thing", ["values"]⟩ false false (-1)).1 =
      ⟨"<class 'fhir.resources.patient.Patient'>", [["dict", "json"]],
        ["resource_type", "name"], [], []⟩) ∧
    ((add_root_validator ⟨"<class 'fhir.resources.patient.Patient'>", [["dict", "json"]],
        ["resource_type", "name"], [], []⟩
      ⟨"validate_thing", ["self", "values"]⟩ false false (-1)).2.isSome = true) :=
  ⟨add_root_validator_signature_check _ _ false false (-1) (Or.inl (by decide)),
   (add_root_validator_signature_check _ ⟨"validate_thing", ["self", "values"]⟩
     false false (-1) (Or.inr (by decide))).1⟩

theorem bool_not_true {b : Bool} (h : ¬ b = true) : b = false := by
  cases b <;> simp_all

theorem isEmpty_false_of_mem {α : Type} {l : List α} {a : α} (h : a ∈ l) :
    l.isEmpty = false := by
  cases l with
  | nil => cases h
  | cons x rest => rfl


theorem pruneListIter_nil : pruneListIter [] = [] := by
  rw [pruneListIter.eq_def]

theorem pruneListIter_cons_null (x : FValue) (rest : List FValue) (hx : x.isNull = true) :
    pruneListIter (x :: rest) = x :: pruneListIter rest := by
  rw [pruneListIter.eq_def]
  simp [hx]

theorem pruneListIter_del_nil (x : FValue) (hx : x.isNull = false)
    (hf : (filter_empty_list_dict x).isNull = true) :
    pruneListIter [x] = [] := by
  rw [pruneListIter.eq_def]
  simp [hx, hf]

theorem pruneListIter_del_cons (x y : FValue) (ys : List FValue) (hx : x.isNull = false)
    (hf : (filter_empty_list_dict x).isNull = true) :
    pruneListIter (x :: y :: ys) = y :: pruneListIter ys := by
  rw [pruneListIter.eq_def]
  simp [hx, hf]

theorem pruneListIter_keep (x : FValue) (rest : List FValue) (hx : x.isNull = false)
    (hf : (filter_empty_list_dict x).isNull = false) :
    pruneListIter (x :: rest) = filter_empty_list_dict x :: pruneListIter rest := by
  rw [pruneListIter.eq_def]
  simp [hx, hf]

theorem pruneDict_nil : pruneDict [] = [] := by
  rw [pruneDict.eq_def]

theorem pruneDict_cons_null (k : String) (v : FValue) (rest : List (String × FValue))
    (hv : v.isNull = true) :
    pruneDict ((k, v) :: rest) = (k, v) :: pruneDict rest := by
  rw [pruneDict.eq_def]
  simp [hv]

theorem pruneDict_cons_del (k : String) (v : FValue) (rest : List (String × FValue))
    (hv : v.isNull = false) (hf : (filter_empty_list_dict v).isNull = true) :
    pruneDict ((k, v) :: rest) = pruneDict rest := by
  rw [pruneDict.eq_def]
  simp [hv, hf]

theorem pruneDict_cons_keep (k : String) (v : FValue) (rest : List (String × FValue))
    (hv : v.isNull = false) (hf : (filter_empty_list_dict v).isNull = false) :
    pruneDict ((k, v) :: rest) = (k, filter_empty_list_dict v) :: pruneDict rest := by
  rw [pruneDict.eq_def]
  simp [hv, hf]

theorem filter_dict_eq (xs : List (String × FValue)) (hxs : xs.isEmpty = false)
    (hys : (pruneDict xs).isEmpty = false) :
    filter_empty_list_dict (FValue.dict xs) = FValue.dict (pruneDict xs) := by
  rw [filter_empty_list_dict.eq_def]
  simp [hxs, hys]

theorem filter_dict_eq_null (xs : List (String × FValue))
    (hys : (pruneDict xs).isEmpty = true) :
    filter_empty_list_dict (FValue.dict xs) = FValue.null := by
  by_cases hxs : xs.isEmpty = true
  · rw [filter_empty_list_dict.eq_def]; simp [hxs]
  · rw [filter_empty_list_dict.eq_def]; simp [bool_not_true hxs, hys]

theorem filter_list_eq (xs : List FValue) (hxs : xs.isEmpty = false)
    (hys : (pruneListIter xs).isEmpty = false) :
    filter_empty_list_dict (FValue.list xs) = FValue.list (pruneListIter xs) := by
  rw [filter_empty_list_dict.eq_def]
  simp [hxs, hys]

theorem filter_list_eq_null (xs : List FValue)
    (hys : (pruneListIter xs).isEmpty = true) :
    filter_empty_list_dict (FValue.list xs) = FValue.null := by
  by_cases hxs : xs.isEmpty = true
  · rw [filter_empty_list_dict.eq_def]; simp [hxs]
  · rw [filter_empty_list_dict.eq_def]; simp [bool_not_true hxs, hys]

theorem pruneDict_null_mem {xs : List (String × FValue)} {k : String}
    (h : (k, FValue.null) ∈ xs) : (k, FValue.null) ∈ pruneDict xs := by
  induction xs with
  | nil => cases h
  | cons q rest ih =>
    obtain ⟨k2, v⟩ := q
    rcases List.mem_cons.mp h with h1 | h1
    · injection h1 with e1 e2
      subst e1; subst e2
      rw [pruneDict_cons_null k FValue.null rest (by rfl)]
      exact List.mem_cons_self _ _
    · by_cases hv : v.isNull = true
      · rw [pruneDict_cons_null k2 v rest hv]
        exact List.mem_cons_of_mem _ (ih h1)
      · have hv' := bool_not_true hv
        by_cases hf : (filter_empty_list_dict v).isNull = true
        · rw [pruneDict_cons_del k2 v rest hv' hf]
          exact ih h1
        · have hf' := bool_not_true hf
          rw [pruneDict_cons_keep k2 v rest hv' hf']
          exact List.mem_cons_of_mem _ (ih h1)

theorem pruneList_null_mem_aux : ∀ (n : Nat) (xs : List FValue), xs.length ≤ n →
    FValue.null ∈ xs → FValue.null ∈ pruneListIter xs := by
  intro n
  induction n with
  | zero =>
    intro xs h hm
    cases xs with
    | nil => cases hm
    | cons x rest => simp at h
  | succ n ih =>
    intro xs h hm
    cases xs with
    | nil => cases hm
    | cons x rest =>
      by_cases hx : x.isNull = true
      · rw [pruneListIter_cons_null x rest hx]
        rcases List.mem_cons.mp hm with h1 | h1
        · rw [h1]; exact List.mem_cons_self _ _
        · exact List.mem_cons_of_mem _ (ih rest (by simp at h; omega) h1)
      · have hx' := bool_not_true hx
        have hxne : FValue.null ≠ x := by
          intro e; rw [← e] at hx'; simp [FValue.isNull] at hx'
        have hrest : FValue.null ∈ rest := by
          rcases List.mem_cons.mp hm with h1 | h1
          · exact absurd h1 hxne
          · exact h1
        by_cases hf : (filter_empty_list_dict x).isNull = true
        · cases rest with
          | nil => cases hrest
          | cons y ys =>
            rw [pruneListIter_del_cons x y ys hx' hf]
            rcases List.mem_cons.mp hrest with h1 | h1
            · rw [h1]; exact List.mem_cons_self _ _
            · exact List.mem_cons_of_mem _ (ih ys (by simp at h; omega) h1)
        · have hf' := bool_not_true hf
          rw [pruneListIter_keep x rest hx' hf']
          exact List.mem_cons_of_mem _ (ih rest (by simp at h; omega) hrest)

theorem pruneDict_kept_mem {xs : List (String × FValue)} {k : String} {v : FValue}
    (h : (k, v) ∈ xs) (hv : v.isNull = false)
    (hf : (filter_empty_list_dict v).isNull = false) :
    (k, filter_empty_list_dict v) ∈ pruneDict xs := by
  induction xs with
  | nil => cases h
  | cons q rest ih =>
    obtain ⟨k2, v2⟩ := q
    rcases List.mem_cons.mp h with h1 | h1
    · injection h1 with e1 e2
      subst e1; subst e2
      rw [pruneDict_cons_keep k v rest hv hf]
      exact List.mem_cons_self _ _
    · by_cases hv2 : v2.isNull = true
      · rw [pruneDict_cons_null k2 v2 rest hv2]
        exact List.mem_cons_of_mem _ (ih h1)
      · have hv2' := bool_not_true hv2
        by_cases hf2 : (filter_empty_list_dict v2).isNull = true
        · rw [pruneDict_cons_del k2 v2 rest hv2' hf2]
          exact ih h1
        · have hf2' := bool_not_true hf2
          rw [pruneDict_cons_keep k2 v2 rest hv2' hf2']
          exact List.mem_cons_of_mem _ (ih h1)

theorem pruneList_kept_mem_aux : ∀ (n : Nat) (xs : List FValue) (v : FValue),
    xs.length ≤ n → v ∈ xs → v.isNull = false →
    (filter_empty_list_dict v).isNull = false →
    filter_empty_list_dict v ∈ pruneListIter xs ∨ v ∈ pruneListIter xs := by
  intro n
  induction n with
  | zero =>
    intro xs v h hm
    cases xs with
    | nil => cases hm
    | cons x rest => simp at h
  | succ n ih =>
    intro xs v h hm hv hf
    cases xs with
    | nil => cases hm
    | cons x rest =>
      by_cases hx : x.isNull = true
      · rw [pruneListIter_cons_null x rest hx]
        rcases List.mem_cons.mp hm with h1 | h1
        · rw [h1] at hv; rw [hx] at hv; cases hv
        · rcases ih rest v (by simp at h; omega) h1 hv hf with h2 | h2
          · exact Or.inl (List.mem_cons_of_mem _ h2)
          · exact Or.inr (List.mem_cons_of_mem _ h2)
      · have hx' := bool_not_true hx
        by_cases hfx : (filter_empty_list_dict x).isNull = true
        · rcases List.mem_cons.mp hm with h1 | h1
          · subst h1; rw [hfx] at hf; cases hf
          · cases rest with
            | nil => cases h1
            | cons y ys =>
              rw [pruneListIter_del_cons x y ys hx' hfx]
              rcases List.mem_cons.mp h1 with h2 | h2
              · exact Or.inr (h2 ▸ List.mem_cons_self _ _)
              · rcases ih ys v (by simp at h; omega) h2 hv hf with h3 | h3
                · exact Or.inl (List.mem_cons_of_mem _ h3)
                · exact Or.inr (List.mem_cons_of_mem _ h3)
        · have hfx' := bool_not_true hfx
          rw [pruneListIter_keep x rest hx' hfx']
          rcases List.mem_cons.mp hm with h1 | h1
          · subst h1; exact Or.inl (List.mem_cons_self _ _)
          · rcases ih rest v (by simp at h; omega) h1 hv hf with h2 | h2
            · exact Or.inl (List.mem_cons_of_mem _ h2)
            · exact Or.inr (List.mem_cons_of_mem _ h2)

/-- C8: the empty-container pruning function leaves null entries
untouched — a dict entry or list element whose value is `None` is still
present after pruning, and the surrounding container therefore does not
collapse; an entry whose value is not `None` is only removed when its
value prunes to `None` (i.e. collapses to an empty container), otherwise
it survives (in a list, possibly unexamined because of the
deletion-skip); and a container that is or becomes entirely empty
collapses to absence (`None`). -/
theorem filter_empty_null_entries_untouched :
    (∀ (xs : List (String × FValue)) (k : String), (k, FValue.null) ∈ xs →
      filter_empty_list_dict (FValue.dict xs) = FValue.dict (pruneDict xs) ∧
      (k, FValue.null) ∈ pruneDict xs) ∧
    (∀ xs : List FValue, FValue.null ∈ xs →
      filter_empty_list_dict (FValue.list xs) = FValue.list (pruneListIter xs) ∧
      FValue.null ∈ pruneListIter xs) ∧
    (∀ (xs : List (String × FValue)) (k : String) (v : FValue), (k, v) ∈ xs →
      v.isNull = false → (filter_empty_list_dict v).isNull = false →
      (k, filter_empty_list_dict v) ∈ pruneDict xs) ∧
    (∀ (xs : List FValue) (v : FValue), v ∈ xs →
      v.isNull = false → (filter_empty_list_dict v).isNull = false →
      filter_empty_list_dict v ∈ pruneListIter xs ∨ v ∈ pruneListIter xs) ∧
    (filter_empty_list_dict (FValue.dict []) = FValue.null ∧
      filter_empty_list_dict (FValue.list []) = FValue.null) := by
  refine ⟨?_, ?_, ?_, ?_, ?_, ?_⟩
  · intro xs k h
    have hmem := pruneDict_null_mem h
    exact ⟨filter_dict_eq xs (isEmpty_false_of_mem h) (isEmpty_false_of_mem hmem), hmem⟩
  · intro xs h
    have hmem := pruneList_null_mem_aux xs.length xs le_rfl h
    exact ⟨filter_list_eq xs (isEmpty_false_of_mem h) (isEmpty_false_of_mem hmem), hmem⟩
  · intro xs k v h hv hf
    exact pruneDict_kept_mem h hv hf
  · intro xs v h hv hf
    exact pruneList_kept_mem_aux xs.length xs v le_rfl h hv hf
  · exact filter_dict_eq_null [] (by rw [pruneDict_nil]; rfl)
  · exact filter_list_eq_null [] (by rw [pruneListIter_nil]; rfl)

/-- C8, witness at concrete inputs: the null entry of
`\x7b"a": null, "b": \x7b\x7d\x7d` survives pruning while the empty dict
is removed, the null element of `[null]` survives, a kept non-null entry
is replaced by its pruned value, and the empty containers collapse to
`None`. -/
theorem filter_empty_null_entries_untouched_witness :
    (filter_empty_list_dict (FValue.dict [("a", FValue.null), ("b", FValue.dict [])]) =
        FValue.dict (pruneDict [("a", FValue.null), ("b", FValue.dict [])]) ∧
      ("a", FValue.null) ∈ pruneDict [("a", FValue.null), ("b", FValue.dict [])]) ∧
    (FValue.null ∈ pruneListIter [FValue.null]) ∧
    (("x", filter_empty_list_dict (FValue.str "s")) ∈ pruneDict [("x", FValue.str "s")]) ∧
    (filter_empty_list_dict (FValue.dict []) = FValue.null) :=
  ⟨filter_empty_null_entries_untouched.1 [("a", FValue.null), ("b", FValue.dict [])] "a"
      (by simp),
   (filter_empty_null_entries_untouched.2.1 [FValue.null] (by simp)).2,
   filter_empty_null_entries_untouched.2.2.1 [("x", FValue.str "s")] "x" (FValue.str "s")
      (by simp) (by rfl) (by rw [filter_empty_list_dict.eq_def]; rfl),
   filter_empty_null_entries_untouched.2.2.2.2.1⟩

theorem ne_self_append_ext (s : String) : ¬ (s = s ++ "__ext") := by
  intro h
  have h2 := congrArg String.length h
  rw [String.length_append] at h2
  have h3 : "__ext".length = 5 := rfl
  omega

theorem append_ext_ne_resourceType (s : String) : ¬ (s ++ "__ext" = "resourceType") := by
  intro h
  have h2 := congrArg String.data h
  rw [String.data_append] at h2
  have h3 : "__ext".data <:+ "resourceType".data := ⟨s.data, h2⟩
  revert h3
  decide

/-- C3, counterexample: a record whose only populated field is an empty
list, serialized with `exclude_none = false`, does RETAIN that field as
an empty list — the empty-container collapse in `_fhir_get_value` only
fires when `exclude_none` is true — whereas the claim says the field is
still omitted. -/
theorem dict_retains_empty_list_when_exclude_none_false :
    dictMethod ⟨"m", "C", "C", [], false, [⟨"item", "item", false, true⟩]⟩
      [("item", FValue.list [])] true false false = [("item", FValue.list [])] := by
  simp [dictMethod, _fhir_iter, _fhir_iter_fields, _fhir_get_value, element_properties,
    has_resource_base, dictGet, fhirMapList, finalCollapse, FValue.isNull,
    toOrderedDict, odInsert, List.isEmpty, List.filter]

/-- C3, amended: for a record whose single element field (any name,
alias and primitive flag) is populated with an empty list, the mapping
form with `exclude_none = true` omits the field entirely; with
`exclude_none = false` a field explicitly set to null is retained as
null, and a field set to an empty list is retained as an empty list
(not omitted). -/
theorem dict_empty_list_field (nm al : String)
    (prim by_alias exclude_comments : Bool) (h1 : ¬ nm = "fhir_comments") :
    dictMethod ⟨"m", "C", "C", [], false, [⟨nm, al, prim, true⟩]⟩
      [(nm, FValue.list [])] by_alias true exclude_comments = [] ∧
    dictMethod ⟨"m", "C", "C", [], false, [⟨nm, al, prim, true⟩]⟩
      [(nm, FValue.list [])] by_alias false exclude_comments =
      [(if by_alias then (if al = "" then nm else al) else nm, FValue.list [])] ∧
    dictMethod ⟨"m", "C", "C", [], false, [⟨nm, al, prim, true⟩]⟩
      [(nm, FValue.null)] by_alias false exclude_comments =
      [(if by_alias then (if al = "" then nm else al) else nm, FValue.null)] := by
  refine ⟨?_, ?_, ?_⟩ <;>
    simp [dictMethod, _fhir_iter, _fhir_iter_fields, _fhir_get_value, element_properties,
      has_resource_base, dictGet, fhirMapList, finalCollapse, FValue.isNull,
      toOrderedDict, odInsert, List.isEmpty, h1, ne_self_append_ext nm, List.filter]

/-- C3, witness for the amended theorem at the concrete field
`item`/alias `item`. -/
theorem dict_empty_list_field_witness :
    dictMethod ⟨"m", "C", "C", [], false, [⟨"item", "item", false, true⟩]⟩
      [("item", FValue.list [])] false true false = [] ∧
    dictMethod ⟨"m", "C", "C", [], false, [⟨"item", "item", false, true⟩]⟩
      [("item", FValue.list [])] false false false = [("item", FValue.list [])] ∧
    dictMethod ⟨"m", "C", "C", [], false, [⟨"item", "item", false, true⟩]⟩
      [("item", FValue.null)] false false false = [("item", FValue.null)] :=
  dict_empty_list_field "item" "item" false false false (by decide)

theorem odInsert_ne_nil (acc : List (String × FValue)) (k : String) (v : FValue) :
    odInsert acc k v ≠ [] := by
  unfold odInsert
  split
  · intro h
    rcases acc with _ | ⟨p, rest⟩
    · simp_all
    · simp at h
  · simp

theorem odInsert_head_key (acc : List (String × FValue)) (k : String) (v : FValue)
    (h : acc ≠ []) :
    (odInsert acc k v).head?.map Prod.fst = acc.head?.map Prod.fst := by
  unfold odInsert
  rcases acc with _ | ⟨p, rest⟩
  · simp_all
  · split
    · simp only [List.map_cons, List.head?_cons, Option.map_some]
      by_cases hp : p.1 = k
      · simp [hp]
      · simp [hp]
    · simp

theorem foldl_odInsert_head (xs : List (String × FValue)) :
    ∀ acc : List (String × FValue), acc ≠ [] →
    (xs.foldl (fun acc p => odInsert acc p.1 p.2) acc) ≠ [] ∧
    (xs.foldl (fun acc p => odInsert acc p.1 p.2) acc).head?.map Prod.fst =
      acc.head?.map Prod.fst := by
  induction xs with
  | nil => intro acc h; exact ⟨h, rfl⟩
  | cons q rest ih =>
    intro acc h
    simp only [List.foldl_cons]
    obtain ⟨h1, h2⟩ := ih (odInsert acc q.1 q.2) (odInsert_ne_nil acc q.1 q.2)
    exact ⟨h1, h2.trans (odInsert_head_key acc q.1 q.2 h)⟩

theorem toOrderedDict_head_key (k : String) (v : FValue) (rest : List (String × FValue)) :
    (toOrderedDict ((k, v) :: rest)).head?.map Prod.fst = some k := by
  unfold toOrderedDict
  simp only [List.foldl_cons]
  have h0 : odInsert [] k v = [(k, v)] := by unfold odInsert; simp
  rw [h0]
  exact (foldl_odInsert_head rest [(k, v)] (by simp)).2

theorem odInsert_keys (acc : List (String × FValue)) (k : String) (v : FValue)
    (x : String) (hx : x ∈ (odInsert acc k v).map Prod.fst) :
    x = k ∨ x ∈ acc.map Prod.fst := by
  unfold odInsert at hx
  split at hx
  · simp only [List.map_map, List.mem_map] at hx
    obtain ⟨p, hp, he⟩ := hx
    by_cases hpk : p.1 = k
    · simp [Function.comp, hpk] at he
      exact Or.inl he.symm
    · simp [Function.comp, hpk] at he
      exact Or.inr (he ▸ List.mem_map_of_mem Prod.fst hp)
  · simp only [List.map_append, List.mem_append] at hx
    rcases hx with hx | hx
    · exact Or.inr hx
    · simp at hx
      exact Or.inl hx

theorem toOrderedDict_keys (xs : List (String × FValue)) (x : String)
    (hx : x ∈ (toOrderedDict xs).map Prod.fst) : x ∈ xs.map Prod.fst := by
  unfold toOrderedDict at hx
  suffices h : ∀ acc : List (String × FValue),
      x ∈ ((xs.foldl (fun acc p => odInsert acc p.1 p.2) acc).map Prod.fst) →
      x ∈ acc.map Prod.fst ∨ x ∈ xs.map Prod.fst by
    rcases h [] hx with h1 | h1
    · cases h1
    · exact h1
  clear hx
  induction xs with
  | nil => intro acc h; exact Or.inl h
  | cons q rest ih =>
    intro acc h
    simp only [List.foldl_cons] at h
    rcases ih (odInsert acc q.1 q.2) h with h1 | h1
    · rcases odInsert_keys acc q.1 q.2 x h1 with h2 | h2
      · exact Or.inr (by simp [h2])
      · exact Or.inl h2
    · exact Or.inr (List.mem_cons_of_mem _ h1)


theorem mem_map_fst_ite_singleton {P : Prop} {inst : Decidable P} {dk : String}
    {v : FValue} {k : String}
    (hk : k ∈ (@ite _ P inst [(dk, v)] []).map Prod.fst) : k = dk := by
  split at hk
  · simpa using hk
  · simp at hk

theorem mem_map_fst_ite_nil_right {P : Prop} {inst : Decidable P}
    {l : List (String × FValue)} {k : String}
    (hk : k ∈ (@ite _ P inst l []).map Prod.fst) : k ∈ l.map Prod.fst := by
  split at hk
  · exact hk
  · simp at hk

theorem mem_map_fst_ite_nil_left {P : Prop} {inst : Decidable P}
    {l : List (String × FValue)} {k : String}
    (hk : k ∈ (@ite _ P inst [] l).map Prod.fst) : k ∈ l.map Prod.fst := by
  split at hk
  · simp at hk
  · exact hk

theorem fieldAlias_cases (cls : ModelClass) (ek : String) :
    fieldAlias cls ek = ek ∨ ∃ fi ∈ cls.fields, fieldAlias cls ek = fi.al := by
  unfold fieldAlias
  cases hfind : cls.fields.find? (fun f => f.name = ek) with
  | none => exact Or.inl rfl
  | some fi => exact Or.inr ⟨fi, List.mem_of_find?_eq_some hfind, rfl⟩

theorem iter_fields_keys (fields : List FieldInfo) (cls : ModelClass)
    (vals : List (String × FValue)) (b e c : Bool) (k : String)
    (hk : k ∈ (_fhir_iter_fields fields cls vals b e c).map Prod.fst) :
    ∃ f ∈ fields, k = f.name ∨ k = f.al ∨ k = f.name ++ "__ext" ∨
      ∃ fi ∈ cls.fields, k = fi.al := by
  induction fields with
  | nil =>
    rw [_fhir_iter_fields.eq_def] at hk
    simp at hk
  | cons f rest ih =>
    rw [_fhir_iter_fields.eq_def] at hk
    simp only [List.map_append, List.mem_append] at hk
    rcases hk with (hk | hk) | hk
    · refine ⟨f, List.mem_cons_self _ _, ?_⟩
      have hdk := mem_map_fst_ite_singleton hk
      split at hdk
      · split at hdk
        · exact Or.inl hdk
        · exact Or.inr (Or.inl hdk)
      · exact Or.inl hdk
    · refine ⟨f, List.mem_cons_self _ _, ?_⟩
      have hk2 := mem_map_fst_ite_nil_left (mem_map_fst_ite_nil_right hk)
      have hdk := mem_map_fst_ite_singleton hk2
      split at hdk
      · split at hdk
        · exact Or.inr (Or.inr (Or.inl hdk))
        · rcases fieldAlias_cases cls (f.name ++ "__ext") with hfa | ⟨fi, hfi, hfa⟩
          · exact Or.inr (Or.inr (Or.inl (hdk.trans hfa)))
          · exact Or.inr (Or.inr (Or.inr ⟨fi, hfi, hdk.trans hfa⟩))
      · exact Or.inr (Or.inr (Or.inl hdk))
    · exact (ih hk).imp (fun g h => ⟨List.mem_cons_of_mem _ h.1, h.2⟩)

/-- C5: a record whose class descends from the `Resource` base emits
the type-tag key `resourceType` as the first key of its mapping form,
for every combination of the `by_alias`/`exclude_none`/`exclude_comments`
flags; a record whose class does not so descend, and whose declared
fields (as in every generated FHIR class) have no name or alias equal to
`resourceType`, never emits a `resourceType` key, regardless of the
flags. -/
theorem resource_tag_emission :
    (∀ (cls : ModelClass) (vals : List (String × FValue)) (b e c : Bool),
      has_resource_base cls = true →
      (dictMethod cls vals b e c).head?.map Prod.fst = some "resourceType") ∧
    (∀ (cls : ModelClass) (vals : List (String × FValue)) (b e c : Bool),
      has_resource_base cls = false →
      (∀ f ∈ cls.fields, ¬ f.name = "resourceType" ∧ ¬ f.al = "resourceType") →
      ¬ "resourceType" ∈ (dictMethod cls vals b e c).map Prod.fst) := by
  constructor
  · intro cls vals b e c h
    unfold dictMethod
    have he : _fhir_iter cls vals b e c = ("resourceType", attrResourceType cls vals) ::
        (_fhir_iter_fields (element_properties cls) cls vals b e c ++
          (if (dictGet vals "fhir_comments").isNull = false ∧ c = false then
            [("fhir_comments", dictGet vals "fhir_comments")] else [])) := by
      unfold _fhir_iter
      rw [h]
      simp
    rw [he]
    exact toOrderedDict_head_key _ _ _
  · intro cls vals b e c h hfields hk
    unfold dictMethod at hk
    have hk2 := toOrderedDict_keys _ _ hk
    unfold _fhir_iter at hk2
    rw [h] at hk2
    simp only [Bool.false_eq_true, if_false, List.nil_append, List.map_append,
      List.mem_append] at hk2
    rcases hk2 with hk2 | hk2
    · obtain ⟨f, hf, hcase⟩ := iter_fields_keys _ cls vals b e c _ hk2
      have hf2 : f ∈ cls.fields := List.mem_of_mem_filter hf
      obtain ⟨hn, ha⟩ := hfields f hf2
      rcases hcase with hc | hc | hc | ⟨fi, hfi, hc⟩
      · exact hn hc.symm
      · exact ha hc.symm
      · exact append_ext_ne_resourceType f.name hc.symm
      · exact (hfields fi hfi).2 hc.symm
    · have := mem_map_fst_ite_singleton hk2
      simp at this

/-- C5, witness: a `Patient`-shaped resource class puts `resourceType`
first; a `HumanName`-shaped embedded sub-structure never emits it. -/
theorem resource_tag_emission_witness :
    (dictMethod ⟨"fhir.resources.patient", "Patient", "Patient",
        ["Patient", "DomainResource", "Resource", "FHIRAbstractModel", "BaseModel",
          "Representation", "object"], false,
        [⟨"name", "name", false, true⟩]⟩
      [("resource_type", FValue.str "Patient"), ("name", FValue.str "X")]
      true true false).head?.map Prod.fst = some "resourceType" ∧
    ¬ "resourceType" ∈ (dictMethod ⟨"fhir.resources.humanname", "HumanName", "HumanName",
        ["HumanName", "Element", "FHIRAbstractModel", "BaseModel", "Representation",
          "object"], false,
        [⟨"text", "text", true, true⟩]⟩
      [("text", FValue.str "Dr")] true true false).map Prod.fst :=
  ⟨resource_tag_emission.1 _ _ true true false (by decide),
   resource_tag_emission.2 _ _ true true false (by decide) (by decide)⟩

theorem popKey_cons (p : String × FValue) (rest : List (String × FValue)) (k : String) :
    popKey (p :: rest) k = if p.1 = k then popKey rest k else p :: popKey rest k := by
  unfold popKey
  simp only [List.filter_cons]
  by_cases hp : p.1 = k <;> simp [hp]

theorem containsKey_cons (p : String × FValue) (rest : List (String × FValue)) (k : String) :
    containsKey (p :: rest) k = (decide (p.1 = k) || containsKey rest k) := by
  simp [containsKey]

theorem dictGet_cons (p : String × FValue) (rest : List (String × FValue)) (k : String) :
    dictGet (p :: rest) k = if p.1 = k then p.2 else dictGet rest k := rfl

theorem dictGet_popKey_ne (xs : List (String × FValue)) (k k2 : String) (h : ¬ k = k2) :
    dictGet (popKey xs k2) k = dictGet xs k := by
  induction xs with
  | nil => rfl
  | cons p rest ih =>
    rw [popKey_cons]
    by_cases hp : p.1 = k2
    · rw [if_pos hp, ih, dictGet_cons]
      rw [if_neg (fun e : p.1 = k => h (e ▸ hp))]
    · rw [if_neg hp, dictGet_cons, dictGet_cons]
      by_cases hpk : p.1 = k
      · rw [if_pos hpk, if_pos hpk]
      · rw [if_neg hpk, if_neg hpk, ih]

theorem containsKey_popKey_ne (xs : List (String × FValue)) (k k2 : String)
    (h : ¬ k = k2) : containsKey (popKey xs k2) k = containsKey xs k := by
  induction xs with
  | nil => rfl
  | cons p rest ih =>
    rw [popKey_cons]
    by_cases hp : p.1 = k2
    · rw [if_pos hp, ih, containsKey_cons]
      have : decide (p.1 = k) = false := by
        simp only [decide_eq_false_iff_not]
        exact fun e => h (e ▸ hp)
      rw [this]
      simp
    · rw [if_neg hp, containsKey_cons, containsKey_cons, ih]

theorem containsKey_popKey_self (xs : List (String × FValue)) (k : String) :
    containsKey (popKey xs k) k = false := by
  induction xs with
  | nil => rfl
  | cons p rest ih =>
    rw [popKey_cons]
    by_cases hp : p.1 = k
    · rw [if_pos hp]
      exact ih
    · rw [if_neg hp, containsKey_cons, ih]
      simp [hp]

theorem dictGet_null_of_not_containsKey (xs : List (String × FValue)) (k : String)
    (h : containsKey xs k = false) : dictGet xs k = FValue.null := by
  induction xs with
  | nil => rfl
  | cons p rest ih =>
    rw [containsKey_cons] at h
    simp only [Bool.or_eq_false_iff, decide_eq_false_iff_not] at h
    rw [dictGet_cons, if_neg h.1]
    exact ih h.2

theorem containsKey_of_dictGet_ne (xs : List (String × FValue)) (k : String)
    (h : ¬ dictGet xs k = FValue.null) : containsKey xs k = true := by
  by_cases hc : containsKey xs k = true
  · exact hc
  · exact absurd
      (dictGet_null_of_not_containsKey xs k (by revert hc; cases containsKey xs k <;> simp))
      h

theorem dictGet_append_default (xs : List (String × FValue)) (k : String) (v : FValue)
    (h : containsKey xs k = false) : dictGet (xs ++ [(k, v)]) k = v := by
  induction xs with
  | nil => simp [dictGet]
  | cons p rest ih =>
    rw [containsKey_cons] at h
    simp only [Bool.or_eq_false_iff, decide_eq_false_iff_not] at h
    rw [List.cons_append, dictGet_cons, if_neg h.1]
    exact ih h.2

theorem fhirInit_eq (cls : ModelClass) (data : List (String × FValue)) :
    fhirInit cls data =
      (if (suppliedTag cls data).isNull = false ∧
          pyEqStr (suppliedTag cls data) cls.resource_type_default = false then
        Except.error ⟨"resource_type", wrongResourceTypeMsg cls (suppliedTag cls data)⟩
      else
        Except.ok (if containsKey (popKey data "resource_type") "resourceType"
              && !(cls.fields.any (fun f => f.name = "resourceType")) then
            popKey (popKey data "resource_type") "resourceType"
          else popKey data "resource_type")) := by
  unfold fhirInit suppliedTag
  by_cases hc : (containsKey (popKey data "resource_type") "resourceType"
      && !(cls.fields.any (fun f => f.name = "resourceType"))) = true
  · simp only [hc, if_true]
    rw [dictGet_popKey_ne data "resourceType" "resource_type" (by decide)]
  · have hc' := bool_not_true hc
    simp only [hc']
    simp

/-- C1: for every model class and input mapping, the constructor's tag
check succeeds when the supplied type tag (under either accepted key
spelling, with `resourceType` taking precedence when it is not shadowed
by a declared field of that name) is absent/null or equals the class's
declared default; any other supplied tag string makes construction fail
with a validation error at location `resource_type` whose message names
the expected tag, the given tag, and the fully-qualified class name.
The last two conjuncts identify the checked tag with the value supplied
under `resourceType` resp. `resource_type` for standard classes (no
declared field named `resourceType`). -/
theorem init_tag_check (cls : ModelClass) (data : List (String × FValue)) (s : String) :
    (suppliedTag cls data = FValue.null → (fhirInit cls data).isOk = true) ∧
    (suppliedTag cls data = FValue.str cls.resource_type_default →
      (fhirInit cls data).isOk = true) ∧
    (suppliedTag cls data = FValue.str s → ¬ s = cls.resource_type_default →
      fhirInit cls data = Except.error ⟨"resource_type",
        "Wrong ResourceType: ``" ++ cls.module_name ++ "." ++ cls.class_name ++
          "`` expects resource type ``" ++ cls.resource_type_default ++
          "``, but got ``" ++ s ++
          "``. Make sure resource type name is correct and right ModelClass has been chosen."⟩) ∧
    ((∀ f ∈ cls.fields, ¬ f.name = "resourceType") →
      dictGet data "resourceType" = FValue.str s → suppliedTag cls data = FValue.str s) ∧
    ((∀ f ∈ cls.fields, ¬ f.name = "resourceType") →
      containsKey data "resourceType" = false →
      suppliedTag cls data = dictGet data "resource_type") := by
  refine ⟨?_, ?_, ?_, ?_, ?_⟩
  · intro h
    rw [fhirInit_eq, h]
    simp [FValue.isNull, Except.isOk, Except.toBool]
  · intro h
    rw [fhirInit_eq, h]
    simp [pyEqStr, Except.isOk, Except.toBool]
  · intro h hne
    rw [fhirInit_eq, h]
    rw [if_pos ⟨rfl, by simp [pyEqStr, hne]⟩]
    rfl
  · intro hstd hsg
    unfold suppliedTag
    have hfand : (cls.fields.any (fun f => f.name = "resourceType")) = false := by
      simp only [List.any_eq_false, decide_eq_true_eq]
      exact hstd
    have hck : containsKey data "resourceType" = true :=
      containsKey_of_dictGet_ne _ _ (by rw [hsg]; simp)
    have hck2 : containsKey (popKey data "resource_type") "resourceType" = true := by
      rw [containsKey_popKey_ne _ _ _ (by decide)]
      exact hck
    rw [hck2, hfand]
    simpa using hsg
  · intro hstd hck
    unfold suppliedTag
    have hck2 : containsKey (popKey data "resource_type") "resourceType" = false := by
      rw [containsKey_popKey_ne _ _ _ (by decide)]
      exact hck
    rw [hck2]
    simp

/-- C10: for every standard model class (no declared field named
`resourceType`) and every construction input that passes the tag check,
both tag key spellings have been removed from the data that is handed
to the base validation engine, so the constructed instance's
`resource_type` attribute is populated with the class's declared
default. -/
theorem init_resource_type_attr (cls : ModelClass) (data rest : List (String × FValue))
    (hstd : ∀ f ∈ cls.fields, ¬ f.name = "resourceType")
    (hok : fhirInit cls data = Except.ok rest) :
    containsKey rest "resource_type" = false ∧
    containsKey rest "resourceType" = false ∧
    dictGet (delegateInit cls rest) "resource_type" = FValue.str cls.resource_type_default := by
  have hfand : (cls.fields.any (fun f => f.name = "resourceType")) = false := by
    simp only [List.any_eq_false, decide_eq_true_eq]
    exact hstd
  rw [fhirInit_eq] at hok
  split at hok
  · cases hok
  · rw [Except.ok.injEq] at hok
    subst hok
    have hmain : containsKey
        (if containsKey (popKey data "resource_type") "resourceType"
            && !(cls.fields.any (fun f => f.name = "resourceType")) then
          popKey (popKey data "resource_type") "resourceType"
        else popKey data "resource_type") "resource_type" = false ∧
        containsKey
        (if containsKey (popKey data "resource_type") "resourceType"
            && !(cls.fields.any (fun f => f.name = "resourceType")) then
          popKey (popKey data "resource_type") "resourceType"
        else popKey data "resource_type") "resourceType" = false := by
      by_cases hc : containsKey (popKey data "resource_type") "resourceType" = true
      · rw [if_pos (by rw [hc, hfand]; rfl)]
        constructor
        · rw [containsKey_popKey_ne _ _ _ (by decide)]
          exact containsKey_popKey_self _ _
        · exact containsKey_popKey_self _ _
      · have hc' := bool_not_true hc
        rw [if_neg (by rw [hc']; simp)]
        exact ⟨containsKey_popKey_self _ _, hc'⟩
    refine ⟨hmain.1, hmain.2, ?_⟩
    unfold delegateInit
    rw [hmain.1]
    simp only [Bool.false_eq_true, if_false]
    exact dictGet_append_default _ _ _ hmain.1

/-- A `Patient`-shaped resource class, as the generated code declares
it: the bookkeeping fields `resource_type` and `fhir_comments` plus one
element field `name`, and an mro whose third entry is `Resource`. -/
def patient_cls : ModelClass :=
  ⟨"fhir.resources.patient", "Patient", "Patient",
    ["Patient", "DomainResource", "Resource", "FHIRAbstractModel", "BaseModel",
      "Representation", "object"], false,
    [⟨"resource_type", "resource_type", false, false⟩,
     ⟨"fhir_comments", "fhir_comments", false, false⟩,
     ⟨"name", "name", false, true⟩]⟩

/-- A `HumanName`-shaped embedded (non-resource) class with one
primitive element field `text`. -/
def humanname_cls : ModelClass :=
  ⟨"fhir.resources.humanname", "HumanName", "HumanName",
    ["HumanName", "Element", "FHIRAbstractModel", "BaseModel", "Representation",
      "object"], false,
    [⟨"resource_type", "resource_type", false, false⟩,
     ⟨"fhir_comments", "fhir_comments", false, false⟩,
     ⟨"text", "text", true, true⟩]⟩

/-- C1, witness: constructing the `Patient` class with no tag or the
correct tag passes the check; the tag `Observation` fails with the
exact rendered message. -/
theorem init_tag_check_witness :
    (fhirInit patient_cls [("active", FValue.bool true)]).isOk = true ∧
    (fhirInit patient_cls
      [("resourceType", FValue.str "Patient"), ("active", FValue.bool true)]).isOk = true ∧
    fhirInit patient_cls [("resourceType", FValue.str "Observation")] =
      Except.error ⟨"resource_type",
        "Wrong ResourceType: ``fhir.resources.patient.Patient`` expects resource type " ++
        "``Patient``, but got ``Observation``. Make sure resource type name is correct " ++
        "and right ModelClass has been chosen."⟩ := by
  refine ⟨(init_tag_check patient_cls _ "Observation").1 rfl,
    (init_tag_check patient_cls _ "Observation").2.1 rfl, ?_⟩
  have h := (init_tag_check patient_cls [("resourceType", FValue.str "Observation")]
    "Observation").2.2.1 rfl (by decide)
  exact h

/-- C10, witness: after constructing `Patient` with a matching
`resourceType` tag, the data handed to the engine holds neither tag
spelling and the stored `resource_type` attribute is the default. -/
theorem init_resource_type_attr_witness :
    containsKey [("active", FValue.bool true)] "resource_type" = false ∧
    containsKey [("active", FValue.bool true)] "resourceType" = false ∧
    dictGet (delegateInit patient_cls [("active", FValue.bool true)]) "resource_type" =
      FValue.str patient_cls.resource_type_default :=
  init_resource_type_attr patient_cls
    [("resourceType", FValue.str "Patient"), ("active", FValue.bool true)]
    [("active", FValue.bool true)] (by decide) (by rfl)


def inner_vals : List (String × FValue) :=
  [("resource_type", FValue.str "HumanName"), ("text", FValue.str "Dr X"),
   ("fhir_comments", FValue.str "inner note")]

def outer_vals : List (String × FValue) :=
  [("resource_type", FValue.str "Patient"),
   ("name", FValue.model humanname_cls inner_vals),
   ("fhir_comments", FValue.str "outer note")]

theorem hn_iter_eval :
    toOrderedDict (_fhir_iter humanname_cls inner_vals true true false) =
      [("text", FValue.str "Dr X"), ("fhir_comments", FValue.str "inner note")] := by
  simp [_fhir_iter, _fhir_iter_fields, _fhir_get_value, element_properties,
    has_resource_base, attrResourceType, containsKey, dictGet, finalCollapse,
    FValue.isNull, toOrderedDict, odInsert, List.isEmpty, humanname_cls, inner_vals,
    List.filter, pyLen]

theorem hname_value_eval :
    _fhir_get_value (FValue.model humanname_cls inner_vals) true true false =
      FValue.dict [("text", FValue.str "Dr X"), ("fhir_comments", FValue.str "inner note")] := by
  simp only [_fhir_get_value, hn_iter_eval]
  simp [List.find?, finalCollapse, List.isEmpty]


theorem ep_patient : element_properties patient_cls =
    [⟨"name", "name", false, true⟩] := by
  simp [element_properties, patient_cls, List.filter]

theorem dg_outer_name : dictGet outer_vals "name" =
    FValue.model humanname_cls inner_vals := by
  simp [dictGet, outer_vals]

theorem dg_outer_comments : dictGet outer_vals "fhir_comments" =
    FValue.str "outer note" := by
  simp [dictGet, outer_vals]

theorem dg_outer_rt : dictGet outer_vals "resource_type" =
    FValue.str "Patient" := by
  simp [dictGet, outer_vals]

theorem hrb_patient : has_resource_base patient_cls = true := by
  simp [has_resource_base, patient_cls]

theorem attr_rt_outer : attrResourceType patient_cls outer_vals =
    FValue.str "Patient" := by
  simp [attrResourceType, containsKey, outer_vals, dictGet]

theorem po_fields_eval :
    _fhir_iter_fields [⟨"name", "name", false, true⟩] patient_cls outer_vals
      true true false =
      [("name", FValue.dict [("text", FValue.str "Dr X"),
        ("fhir_comments", FValue.str "inner note")])] := by
  simp only [_fhir_iter_fields, dg_outer_name, hname_value_eval]
  simp [FValue.isNull]

theorem patient_iter_eval :
    _fhir_iter patient_cls outer_vals true true false =
      [("resourceType", FValue.str "Patient"),
       ("name", FValue.dict [("text", FValue.str "Dr X"),
         ("fhir_comments", FValue.str "inner note")]),
       ("fhir_comments", FValue.str "outer note")] := by
  simp only [_fhir_iter, ep_patient, po_fields_eval, hrb_patient, attr_rt_outer,
    dg_outer_comments]
  simp [FValue.isNull]

theorem patient_dict_eval :
    dictMethod patient_cls outer_vals true true false =
      [("resourceType", FValue.str "Patient"),
       ("name", FValue.dict [("text", FValue.str "Dr X"),
         ("fhir_comments", FValue.str "inner note")]),
       ("fhir_comments", FValue.str "outer note")] := by
  unfold dictMethod
  rw [patient_iter_eval]
  simp [toOrderedDict, odInsert]


theorem filter_str (s : String) : filter_empty_list_dict (FValue.str s) = FValue.str s := by
  rw [filter_empty_list_dict.eq_def]

theorem pruneDict_str_cons (k s : String) (rest : List (String × FValue)) :
    pruneDict ((k, FValue.str s) :: rest) = (k, FValue.str s) :: pruneDict rest := by
  rw [pruneDict_cons_keep k (FValue.str s) rest rfl (by rw [filter_str]; rfl)]
  rw [filter_str]

theorem inner_dict_filter :
    filter_empty_list_dict (FValue.dict [("text", FValue.str "Dr X"),
      ("fhir_comments", FValue.str "inner note")]) =
      FValue.dict [("text", FValue.str "Dr X"), ("fhir_comments", FValue.str "inner note")] := by
  have hpin : pruneDict [("text", FValue.str "Dr X"),
      ("fhir_comments", FValue.str "inner note")] =
      [("text", FValue.str "Dr X"), ("fhir_comments", FValue.str "inner note")] := by
    rw [pruneDict_str_cons, pruneDict_str_cons, pruneDict_nil]
  have h := filter_dict_eq [("text", FValue.str "Dr X"),
    ("fhir_comments", FValue.str "inner note")] (by rfl) (by rw [hpin]; rfl)
  rw [hpin] at h
  exact h

theorem json_eval :
    jsonData patient_cls outer_vals true true true =
      FValue.dict [("resourceType", FValue.str "Patient"),
        ("name", FValue.dict [("text", FValue.str "Dr X"),
          ("fhir_comments", FValue.str "inner note")]),
        ("fhir_comments", FValue.str "outer note")] := by
  unfold jsonData
  rw [patient_dict_eval]
  rw [show patient_cls.custom_root = false from rfl]
  simp only [Bool.false_eq_true, if_false, if_true]
  have hpout : pruneDict [("resourceType", FValue.str "Patient"),
      ("name", FValue.dict [("text", FValue.str "Dr X"),
        ("fhir_comments", FValue.str "inner note")]),
      ("fhir_comments", FValue.str "outer note")] =
      [("resourceType", FValue.str "Patient"),
       ("name", FValue.dict [("text", FValue.str "Dr X"),
         ("fhir_comments", FValue.str "inner note")]),
       ("fhir_comments", FValue.str "outer note")] := by
    rw [pruneDict_str_cons]
    rw [pruneDict_cons_keep "name" (FValue.dict [("text", FValue.str "Dr X"),
      ("fhir_comments", FValue.str "inner note")]) _ rfl (by rw [inner_dict_filter]; rfl)]
    rw [inner_dict_filter, pruneDict_str_cons, pruneDict_nil]
  have h := filter_dict_eq [("resourceType", FValue.str "Patient"),
    ("name", FValue.dict [("text", FValue.str "Dr X"),
      ("fhir_comments", FValue.str "inner note")]),
    ("fhir_comments", FValue.str "outer note")] (by rfl) (by rw [hpout]; rfl)
  rw [hpout] at h
  exact h

theorem hn_iter_nc :
    toOrderedDict (_fhir_iter humanname_cls inner_vals true true true) =
      [("text", FValue.str "Dr X")] := by
  simp [_fhir_iter, _fhir_iter_fields, _fhir_get_value, element_properties,
    has_resource_base, attrResourceType, containsKey, dictGet, finalCollapse,
    FValue.isNull, toOrderedDict, odInsert, List.isEmpty, humanname_cls, inner_vals,
    List.filter, pyLen]

theorem hname_value_nc :
    _fhir_get_value (FValue.model humanname_cls inner_vals) true true true =
      FValue.dict [("text", FValue.str "Dr X")] := by
  simp only [_fhir_get_value, hn_iter_nc]
  simp [List.find?, finalCollapse, List.isEmpty]

theorem po_fields_nc :
    _fhir_iter_fields [⟨"name", "name", false, true⟩] patient_cls outer_vals
      true true true = [("name", FValue.dict [("text", FValue.str "Dr X")])] := by
  simp only [_fhir_iter_fields, dg_outer_name, hname_value_nc]
  simp [FValue.isNull]

theorem patient_iter_nc :
    _fhir_iter patient_cls outer_vals true true true =
      [("resourceType", FValue.str "Patient"),
       ("name", FValue.dict [("text", FValue.str "Dr X")])] := by
  simp only [_fhir_iter, ep_patient, po_fields_nc, hrb_patient, attr_rt_outer,
    dg_outer_comments]
  simp [FValue.isNull]

theorem patient_dict_nc :
    dictMethod patient_cls outer_vals true true true =
      [("resourceType", FValue.str "Patient"),
       ("name", FValue.dict [("text", FValue.str "Dr X")])] := by
  unfold dictMethod
  rw [patient_iter_nc]
  simp [toOrderedDict, odInsert]

/-- C2, failing input (code bug): a `Patient` holding a nested
`HumanName` that carries comment annotations, serialized through `json`
with `exclude_comments = true`, still contains the `fhir_comments` key
at BOTH nesting depths — `json` builds a comments exclusion set but
calls the overridden `dict` without the `exclude_comments` flag (the
set lands in the ignored `**pydantic_extra`), and the
`filter_empty_list_dict` post-pass only removes empty containers.  The
same flags passed to `dict` directly DO strip the comments at every
depth, which is the documented intent of `json` ("support
fhir_comments filter"). -/
theorem json_exclude_comments_keeps_comments :
    jsonData patient_cls outer_vals true true true =
      FValue.dict [("resourceType", FValue.str "Patient"),
        ("name", FValue.dict [("text", FValue.str "Dr X"),
          ("fhir_comments", FValue.str "inner note")]),
        ("fhir_comments", FValue.str "outer note")] ∧
    hasKeyDeep "fhir_comments" (jsonData patient_cls outer_vals true true true) = true ∧
    hasKeyDeep "fhir_comments"
      (FValue.dict (dictMethod patient_cls outer_vals true true true)) = false := by
  refine ⟨json_eval, ?_, ?_⟩
  · rw [json_eval]
    simp [hasKeyDeep, hasKeyDeepDict, hasKeyDeepList]
  · rw [patient_dict_nc]
    simp [hasKeyDeep, hasKeyDeepDict, hasKeyDeepList]
